import Mathlib

/- Verification of the two notebooks in this repository: the covariance and
correlation notebook (`CovarianceCorrelation.py`, Procedure B of the spec) and
the conditional-probability notebook (Procedure A of the spec).

Procedure B is embedded over the real numbers: `mean`, `de_mean`, `dot`,
`covariance`, `std` and `correlation` below are direct transcriptions of the
Python definitions (numpy's `x.std()` is the population standard deviation,
square root of the mean of squared deviations).

Procedure A is embedded with Python dictionaries as association lists and the
random stream as an explicit list of draws: each draw carries the uniformly
chosen age-decade label and the uniform value in [0,1) used for the purchase
test. -/

set_option maxHeartbeats 1000000

namespace CovCorr

/-- The arithmetic mean `sum(x) / len(x)`, mirroring `mean(x)` from pylab as
used inside `de_mean`. -/
noncomputable def mean (x : List ℝ) : ℝ := x.sum / x.length

/-- Transcription of `de_mean(x)`: `[xi - xmean for xi in x]` with
`xmean = mean(x)`. -/
noncomputable def de_mean (x : List ℝ) : List ℝ := x.map (fun xi => xi - mean x)

/-- Transcription of `dot(x, y)` (numpy) on two 1-D vectors: the sum of the
pairwise products. -/
noncomputable def dot (x y : List ℝ) : ℝ := (List.zipWith (fun a b => a * b) x y).sum

/-- Transcription of `covariance(x, y)`:
`dot(de_mean(x), de_mean(y)) / (n - 1)` where `n = len(x)`. -/
noncomputable def covariance (x y : List ℝ) : ℝ :=
  dot (de_mean x) (de_mean y) / ((x.length : ℝ) - 1)

/-- Transcription of numpy's `x.std()`: the population standard deviation, the
square root of the mean of the squared deviations (divisor `n`, not `n - 1`). -/
noncomputable def std (x : List ℝ) : ℝ :=
  Real.sqrt (dot (de_mean x) (de_mean x) / (x.length : ℝ))

/-- Transcription of `correlation(x, y)`:
`covariance(x, y) / stddevx / stddevy` with `stddevx = x.std()`,
`stddevy = y.std()`. -/
noncomputable def correlation (x y : List ℝ) : ℝ :=
  covariance x y / std x / std y

/-- A sequence is non-constant when it holds two different elements. -/
def nonconst (x : List ℝ) : Prop := ∃ a ∈ x, ∃ b ∈ x, a ≠ b

/-- Written from the spec's words, independently of the code: the sum over i
of de_mean(x)[i] × de_mean(y)[i], divided by (n − 1), where the i-th
mean-deviation is x[i] minus the arithmetic mean of x. -/
noncomputable def specCovariance (x y : List ℝ) : ℝ :=
  (∑ i in Finset.range x.length,
    (x.getD i 0 - x.sum / x.length) * (y.getD i 0 - y.sum / y.length)) /
    ((x.length : ℝ) - 1)

/-- Divisors evaluated while computing `covariance(x, y)`: `len(x)` inside
`mean(x)`, `len(y)` inside `mean(y)`, and `n - 1` with `n = len(x)`. This
proposition holds exactly when one of those divisors is zero, i.e. when the
computation performs a division by zero. -/
def covarianceDivZero (x y : List ℝ) : Prop :=
  (x.length : ℝ) = 0 ∨ (y.length : ℝ) = 0 ∨ (x.length : ℝ) - 1 = 0

/-- Divisors evaluated while computing `correlation(x, y)`: all divisors of
`covariance(x, y)`, plus `stddevx = x.std()` and `stddevy = y.std()`. -/
def correlationDivZero (x y : List ℝ) : Prop :=
  covarianceDivZero x y ∨ std x = 0 ∨ std y = 0

end CovCorr

namespace CondProb

/-- The fixed age-decade label set `[20, 30, 40, 50, 60, 70]` that
`random.choice` draws from. -/
def ageLabels : List ℕ := [20, 30, 40, 50, 60, 70]

/-- A Python dict with natural-number keys and values, as an association
list (the generation loop only ever updates keys present since
initialization, so the key set is fixed). -/
def Dict : Type := List (ℕ × ℕ)

/-- Transcription of `d[k] += 1`. -/
def incr (d : Dict) (k : ℕ) : Dict :=
  List.map (fun p => if p.1 = k then (p.1, p.2 + 1) else p) d

/-- The key set of a dict, in insertion order. -/
def keys (d : Dict) : List ℕ := List.map Prod.fst d

/-- The value stored at key `k` (0 when the key is absent). -/
def getVal (d : Dict) (k : ℕ) : ℕ := (List.lookup k d).getD 0

/-- The sum of all stored values. -/
def valSum (d : Dict) : ℕ := (List.map Prod.snd d).sum

/-- One random draw for one individual: the uniformly chosen label
(`random.choice([20, 30, 40, 50, 60, 70])`) and the uniform value in [0,1)
(`random.random()`) used for the purchase test. -/
structure Draw where
  label : ℕ
  r : ℚ

/-- The mutable state of the generation loop: the dicts `totals` and
`purchases` and the counter `totalPurchases`. -/
structure SimState where
  totals : Dict
  purchases : Dict
  totalPurchases : ℕ

/-- Initial state: `totals = {20:0, 30:0, 40:0, 50:0, 60:0, 70:0}`,
`purchases` likewise, `totalPurchases = 0`. -/
def initState : SimState :=
  { totals := List.map (fun l => (l, 0)) ageLabels,
    purchases := List.map (fun l => (l, 0)) ageLabels,
    totalPurchases := 0 }

/-- One iteration of the generation loop:
`purchaseProbability = float(ageDecade) / 100.0`;
`totals[ageDecade] += 1`; then, if `random.random() < purchaseProbability`,
`totalPurchases += 1` and `purchases[ageDecade] += 1`. -/
def stepSim (st : SimState) (d : Draw) : SimState :=
  if d.r < (d.label : ℚ) / 100 then
    { totals := incr st.totals d.label,
      purchases := incr st.purchases d.label,
      totalPurchases := st.totalPurchases + 1 }
  else
    { totals := incr st.totals d.label,
      purchases := st.purchases,
      totalPurchases := st.totalPurchases }

/-- The whole generation loop, run over the stream of draws. -/
def runSim (ds : List Draw) : SimState := ds.foldl stepSim initState

/-- The loop invariant: the two dicts keep the fixed key set
`[20, 30, 40, 50, 60, 70]`, every per-label purchase count is bounded by the
per-label total, the totals sum to the number of individuals processed, and
the per-label purchases sum to `totalPurchases`. -/
def simInv (st : SimState) (n : ℕ) : Prop :=
  keys st.totals = ageLabels ∧
  keys st.purchases = ageLabels ∧
  (∀ L, getVal st.purchases L ≤ getVal st.totals L) ∧
  valSum st.totals = n ∧
  valSum st.purchases = st.totalPurchases

/-- P(purchase | label = L), the ratio `purchases[L] / totals[L]`: the
computation of `PEF` (line 57), generalized from the label 30 to an arbitrary
label. -/
def condProb (st : SimState) (L : ℕ) : ℚ :=
  (getVal st.purchases L : ℚ) / (getVal st.totals L : ℚ)

/-- P(label = L), the ratio `totals[L] / N`: the computation of `PF`
(line 66), generalized from label 30 and N = 100000. -/
def margProb (st : SimState) (L N : ℕ) : ℚ :=
  (getVal st.totals L : ℚ) / (N : ℚ)

/-- P(label = L, purchase), the ratio `purchases[L] / N`: the joint
probability of line 88, generalized from label 30 and N = 100000. -/
def jointProb (st : SimState) (L N : ℕ) : ℚ :=
  (getVal st.purchases L : ℚ) / (N : ℚ)

end CondProb

namespace CovCorr

theorem length_de_mean (x : List ℝ) : (de_mean x).length = x.length := by
  simp [de_mean]

theorem getD_de_mean (x : List ℝ) (i : ℕ) (h : i < x.length) :
    (de_mean x).getD i 0 = x.getD i 0 - mean x := by
  simp [de_mean, List.getD_eq_getElem?_getD, List.getElem?_map,
    List.getElem?_eq_getElem h]

theorem dot_eq_sum_range (x y : List ℝ) (h : x.length = y.length) :
    dot x y = ∑ i in Finset.range x.length, x.getD i 0 * y.getD i 0 := by
  induction x generalizing y with
  | nil => simp [dot]
  | cons a x ih =>
    cases y with
    | nil => simp at h
    | cons b y =>
      have hlen : x.length = y.length := by simpa using h
      have hrec := ih y hlen
      simp only [List.length_cons, Finset.sum_range_succ']
      simp only [List.getD_cons_succ, List.getD_cons_zero]
      simp [dot] at hrec ⊢
      rw [hrec]
      ring

/-- C1: for equal-length sequences of length at least 2, `covariance` returns
the sum over i of `de_mean(x)[i] * de_mean(y)[i]` divided by `n - 1`, where
`de_mean(x)` has the same length and order as `x` and its i-th element is
`x[i]` minus the arithmetic mean of `x`. -/
theorem covariance_matches_spec (x y : List ℝ) (hlen : x.length = y.length)
    (hn : 2 ≤ x.length) :
    (de_mean x).length = x.length ∧
    (∀ i, i < x.length → (de_mean x).getD i 0 = x.getD i 0 - mean x) ∧
    covariance x y = specCovariance x y := by
  refine ⟨length_de_mean x, fun i hi => getD_de_mean x i hi, ?_⟩
  have hdm : (de_mean x).length = (de_mean y).length := by
    simp [length_de_mean, hlen]
  have hsum := dot_eq_sum_range (de_mean x) (de_mean y) hdm
  rw [covariance, specCovariance, hsum, length_de_mean]
  congr 1
  refine Finset.sum_congr rfl fun i hi => ?_
  have hix : i < x.length := Finset.mem_range.mp hi
  have hiy : i < y.length := hlen ▸ hix
  rw [getD_de_mean x i hix, getD_de_mean y i hiy, mean, mean]

/-- Witness for C1 at `x = [1, 2]`, `y = [3, 4]`. -/
theorem covariance_matches_spec_witness :
    ([(1 : ℝ), 2].length = [(3 : ℝ), 4].length) ∧
    (2 ≤ [(1 : ℝ), 2].length) ∧
    covariance [(1 : ℝ), 2] [(3 : ℝ), 4] = specCovariance [(1 : ℝ), 2] [(3 : ℝ), 4] :=
  ⟨by simp, by simp,
    (covariance_matches_spec [(1 : ℝ), 2] [(3 : ℝ), 4] (by simp) (by simp)).2.2⟩

theorem dot_self_nonneg (l : List ℝ) : 0 ≤ dot l l := by
  induction l with
  | nil => simp [dot]
  | cons a t ih =>
    simp only [dot, List.zipWith_cons_cons, List.sum_cons] at ih ⊢
    exact add_nonneg (mul_self_nonneg a) ih

theorem dot_self_eq_zero (l : List ℝ) (h : dot l l = 0) : ∀ a ∈ l, a = 0 := by
  induction l with
  | nil => simp
  | cons a t ih =>
    simp only [dot, List.zipWith_cons_cons, List.sum_cons] at h
    have ht : 0 ≤ dot t t := dot_self_nonneg t
    have ha : 0 ≤ a * a := mul_self_nonneg a
    have h1 : a * a = 0 := by
      simp only [dot] at ht; linarith
    have h2 : dot t t = 0 := by
      simp only [dot] at ht ⊢; linarith
    intro b hb
    rcases List.mem_cons.mp hb with hb | hb
    · subst hb; exact mul_self_eq_zero.mp h1
    · exact ih h2 b hb

theorem nonconst_sumsq_ne (x : List ℝ) (hx : nonconst x) :
    dot (de_mean x) (de_mean x) ≠ 0 := by
  intro h0
  obtain ⟨a, ha, b, hb, hab⟩ := hx
  have h1 : a - mean x = 0 :=
    dot_self_eq_zero _ h0 _ (List.mem_map_of_mem _ ha)
  have h2 : b - mean x = 0 :=
    dot_self_eq_zero _ h0 _ (List.mem_map_of_mem _ hb)
  exact hab (by linarith)

theorem std_pos (x : List ℝ) (hne : x ≠ []) (hx : nonconst x) : 0 < std x := by
  have hS : 0 ≤ dot (de_mean x) (de_mean x) := dot_self_nonneg _
  have hS0 : dot (de_mean x) (de_mean x) ≠ 0 := nonconst_sumsq_ne x hx
  have hlen : 0 < (x.length : ℝ) := by
    have := List.length_pos.mpr hne
    exact_mod_cast this
  exact Real.sqrt_pos.mpr (div_pos (lt_of_le_of_ne hS (Ne.symm hS0)) hlen)

theorem mul_self_std (x : List ℝ) :
    std x * std x = dot (de_mean x) (de_mean x) / (x.length : ℝ) :=
  Real.mul_self_sqrt (div_nonneg (dot_self_nonneg _) (Nat.cast_nonneg _))

/-- C10: on the code as written, `correlation(x, x)` is `n / (n - 1)` for a
non-constant `x` of length `n ≥ 2`: the covariance divides by `n - 1` while
numpy's `std` uses the population divisor `n`, so the normalizations do not
cancel. -/
theorem correlation_self (x : List ℝ) (h2 : 2 ≤ x.length) (hx : nonconst x) :
    correlation x x = (x.length : ℝ) / ((x.length : ℝ) - 1) := by
  have hS0 : dot (de_mean x) (de_mean x) ≠ 0 := nonconst_sumsq_ne x hx
  have h2R : (2 : ℝ) ≤ (x.length : ℝ) := by exact_mod_cast h2
  have hn0 : (x.length : ℝ) ≠ 0 := by linarith
  have hn1 : (x.length : ℝ) - 1 ≠ 0 := by linarith
  rw [correlation, div_div, mul_self_std, covariance]
  field_simp
  ring

/-- Witness for C10 at `x = [1, 2]`. -/
theorem correlation_self_witness :
    2 ≤ [(1 : ℝ), 2].length ∧ nonconst [(1 : ℝ), 2] ∧
    correlation [(1 : ℝ), 2] [(1 : ℝ), 2] =
      (([(1 : ℝ), 2].length : ℝ)) / (([(1 : ℝ), 2].length : ℝ) - 1) :=
  ⟨by simp, ⟨1, by simp, 2, by simp, by norm_num⟩,
    correlation_self [(1 : ℝ), 2] (by simp) ⟨1, by simp, 2, by simp, by norm_num⟩⟩

theorem covarianceDivZero_iff (x y : List ℝ) (hlen : x.length = y.length) :
    covarianceDivZero x y ↔ x.length < 2 := by
  unfold covarianceDivZero
  rw [← hlen]
  constructor
  · rintro (h | h | h)
    · have : x.length = 0 := by exact_mod_cast h
      omega
    · have : x.length = 0 := by exact_mod_cast h
      omega
    · have h1 : (x.length : ℝ) = 1 := by linarith [sub_eq_zero.mp h]
      have : x.length = 1 := by exact_mod_cast h1
      omega
  · intro h
    interval_cases hx : x.length
    · left; simp
    · right; right; simp

/-- C8: with equal-length inputs, `covariance` performs a division by zero
exactly when the length is below 2; `correlation` performs a division by zero
whenever either standard deviation is zero; and no division by zero is reached
when the length is at least 2 and both sequences are non-constant. -/
theorem divZero_characterization (x y : List ℝ) (hlen : x.length = y.length) :
    (covarianceDivZero x y ↔ x.length < 2) ∧
    (std x = 0 ∨ std y = 0 → correlationDivZero x y) ∧
    (2 ≤ x.length → nonconst x → nonconst y → ¬ correlationDivZero x y) := by
  refine ⟨covarianceDivZero_iff x y hlen, fun h => Or.inr h, ?_⟩
  intro h2 hx hy hcontra
  have hxne : x ≠ [] := by
    intro h; rw [h] at h2; simp at h2
  have hyne : y ≠ [] := by
    intro h; rw [h, List.length_nil] at hlen; omega
  rcases hcontra with hc | h | h
  · have := (covarianceDivZero_iff x y hlen).mp hc
    omega
  · exact (std_pos x hxne hx).ne' h
  · exact (std_pos y hyne hy).ne' h

theorem std_one_two : std [(1 : ℝ), 2] = 1 / 2 := by
  have h : dot (de_mean [(1 : ℝ), 2]) (de_mean [(1 : ℝ), 2]) /
      (([(1 : ℝ), 2].length : ℝ)) = (1 / 2) ^ 2 := by
    simp [dot, de_mean, mean]; norm_num
  rw [std, h, Real.sqrt_sq (by norm_num)]

theorem cov_one_two : covariance [(1 : ℝ), 2] [(1 : ℝ), 2] = 1 / 2 := by
  simp [covariance, dot, de_mean, mean]; norm_num

theorem correlation_one_two : correlation [(1 : ℝ), 2] [(1 : ℝ), 2] = 2 := by
  rw [correlation, std_one_two, cov_one_two]
  norm_num

/-- C2: the code violates the claim that `correlation(x, x) = 1` for
non-constant `x`: at the failing input `x = [1, 2]` the code returns 2 — the
population standard deviation (divisor `n`) does not cancel the bias-corrected
covariance (divisor `n - 1`), giving `n / (n - 1)` instead of 1. -/
theorem correlation_self_at_failing_input :
    correlation [(1 : ℝ), 2] [(1 : ℝ), 2] = 2 := correlation_one_two

/-- C3: the code violates the claimed bound: at the non-constant equal-length
input `x = y = [1, 2]` the value returned by `correlation` is strictly greater
than 1, hence outside the interval [-1, 1]. -/
theorem correlation_exceeds_bound :
    1 < correlation [(1 : ℝ), 2] [(1 : ℝ), 2] := by
  rw [correlation_one_two]; norm_num

theorem std_x0 : std [(1 : ℝ), 2, 3, 4, 5] = Real.sqrt 2 := by
  rw [std]; congr 1; simp [dot, de_mean, mean]; norm_num

theorem std_y0 : std [(2 : ℝ), 4, 6, 8, 10] = Real.sqrt 8 := by
  rw [std]; congr 1; simp [dot, de_mean, mean]; norm_num

theorem std_y1 : std [(10 : ℝ), 8, 6, 4, 2] = Real.sqrt 8 := by
  rw [std]; congr 1; simp [dot, de_mean, mean]; norm_num

theorem sqrt_two_mul_sqrt_eight : Real.sqrt 2 * Real.sqrt 8 = 4 := by
  rw [← Real.sqrt_mul (by norm_num : (0 : ℝ) ≤ 2)]
  rw [show (2 : ℝ) * 8 = 4 ^ 2 by norm_num, Real.sqrt_sq (by norm_num)]

theorem cov_x0_y0 :
    covariance [(1 : ℝ), 2, 3, 4, 5] [(2 : ℝ), 4, 6, 8, 10] = 5 := by
  simp [covariance, dot, de_mean, mean]; norm_num

theorem cov_x0_y1 :
    covariance [(1 : ℝ), 2, 3, 4, 5] [(10 : ℝ), 8, 6, 4, 2] = -5 := by
  simp [covariance, dot, de_mean, mean]; norm_num

/-- C4: evaluation of the code on the spec's concrete scenarios. With
`x = [1,2,3,4,5]` and `y = [2,4,6,8,10]`, `covariance` returns 5 as claimed,
but `correlation` returns 5/4, not 1; with `y = [10,8,6,4,2]`, `correlation`
returns -5/4, not -1. -/
theorem concrete_scenarios_eval :
    covariance [(1 : ℝ), 2, 3, 4, 5] [(2 : ℝ), 4, 6, 8, 10] = 5 ∧
    correlation [(1 : ℝ), 2, 3, 4, 5] [(2 : ℝ), 4, 6, 8, 10] = 5 / 4 ∧
    correlation [(1 : ℝ), 2, 3, 4, 5] [(10 : ℝ), 8, 6, 4, 2] = -(5 / 4) := by
  refine ⟨cov_x0_y0, ?_, ?_⟩
  · rw [correlation, cov_x0_y0, std_x0, std_y0, div_div, sqrt_two_mul_sqrt_eight]
  · rw [correlation, cov_x0_y1, std_x0, std_y1, div_div, sqrt_two_mul_sqrt_eight]
    norm_num

/-- Witness for C8 at `x = [1, 2]`, `y = [3, 5]`. -/
theorem divZero_characterization_witness :
    (covarianceDivZero [(1 : ℝ), 2] [(3 : ℝ), 5] ↔ [(1 : ℝ), 2].length < 2) ∧
    (std [(1 : ℝ), 2] = 0 ∨ std [(3 : ℝ), 5] = 0 →
      correlationDivZero [(1 : ℝ), 2] [(3 : ℝ), 5]) ∧
    (2 ≤ [(1 : ℝ), 2].length → nonconst [(1 : ℝ), 2] → nonconst [(3 : ℝ), 5] →
      ¬ correlationDivZero [(1 : ℝ), 2] [(3 : ℝ), 5]) :=
  divZero_characterization [(1 : ℝ), 2] [(3 : ℝ), 5] (by simp)

theorem sum_map_affine (a b : ℝ) (x : List ℝ) :
    (x.map (fun t => a * t + b)).sum = a * x.sum + b * x.length := by
  induction x with
  | nil => simp
  | cons c t ih =>
    simp only [List.map_cons, List.sum_cons, List.length_cons, ih]
    push_cast
    ring

theorem mean_affine (a b : ℝ) (x : List ℝ) (h : x ≠ []) :
    mean (x.map (fun t => a * t + b)) = a * mean x + b := by
  have hl : (x.length : ℝ) ≠ 0 :=
    Nat.cast_ne_zero.mpr (List.length_pos.mpr h).ne'
  rw [mean, List.length_map, sum_map_affine, mean]
  field_simp

theorem de_mean_affine (a b : ℝ) (x : List ℝ) (h : x ≠ []) :
    de_mean (x.map (fun t => a * t + b)) = (de_mean x).map (fun t => a * t) := by
  rw [de_mean, de_mean, List.map_map, List.map_map]
  congr 1
  funext t
  simp only [Function.comp_apply, mean_affine a b x h]
  ring

theorem dot_map_smul_left (a : ℝ) (l m : List ℝ) :
    dot (l.map (fun t => a * t)) m = a * dot l m := by
  induction l generalizing m with
  | nil => simp [dot]
  | cons c t ih =>
    cases m with
    | nil => simp [dot]
    | cons d m' =>
      simp only [List.map_cons, dot, List.zipWith_cons_cons, List.sum_cons] at ih ⊢
      rw [ih m']
      ring

theorem dot_map_smul_right (a : ℝ) (l m : List ℝ) :
    dot l (m.map (fun t => a * t)) = a * dot l m := by
  induction l generalizing m with
  | nil => simp [dot]
  | cons c t ih =>
    cases m with
    | nil => simp [dot]
    | cons d m' =>
      simp only [List.map_cons, dot, List.zipWith_cons_cons, List.sum_cons] at ih ⊢
      rw [ih m']
      ring

theorem std_affine (a b : ℝ) (x : List ℝ) (h : x ≠ []) :
    std (x.map (fun t => a * t + b)) = |a| * std x := by
  rw [std, std, de_mean_affine a b x h, List.length_map,
    dot_map_smul_left, dot_map_smul_right]
  rw [show a * (a * dot (de_mean x) (de_mean x)) / (x.length : ℝ) =
    a ^ 2 * (dot (de_mean x) (de_mean x) / (x.length : ℝ)) by ring]
  rw [Real.sqrt_mul (sq_nonneg a), Real.sqrt_sq_eq_abs]

theorem covariance_affine_left (a b : ℝ) (x y : List ℝ) (h : x ≠ []) :
    covariance (x.map (fun t => a * t + b)) y = a * covariance x y := by
  rw [covariance, covariance, de_mean_affine a b x h, List.length_map,
    dot_map_smul_left, mul_div_assoc]

theorem covariance_affine_right (a b : ℝ) (x y : List ℝ) (h : y ≠ []) :
    covariance x (y.map (fun t => a * t + b)) = a * covariance x y := by
  rw [covariance, covariance, de_mean_affine a b y h,
    dot_map_smul_right, mul_div_assoc]

/-- C9: for equal-length non-constant sequences of length at least 2 and an
affine transform with scale `a`, applied to either argument, `correlation` is
unchanged when `a > 0` and negated when `a < 0`. -/
theorem correlation_affine (x y : List ℝ) (a b : ℝ)
    (hlen : x.length = y.length) (h2 : 2 ≤ x.length)
    (hx : nonconst x) (hy : nonconst y) :
    (0 < a →
      correlation (x.map (fun t => a * t + b)) y = correlation x y ∧
      correlation x (y.map (fun t => a * t + b)) = correlation x y) ∧
    (a < 0 →
      correlation (x.map (fun t => a * t + b)) y = - correlation x y ∧
      correlation x (y.map (fun t => a * t + b)) = - correlation x y) := by
  have hxne : x ≠ [] := by
    intro hcon; rw [hcon] at h2; simp at h2
  have hyne : y ≠ [] := by
    intro hcon; rw [hcon, List.length_nil] at hlen; omega
  constructor
  · intro ha
    have hane : a ≠ 0 := ne_of_gt ha
    constructor
    · rw [correlation, correlation, covariance_affine_left a b x y hxne,
        std_affine a b x hxne, abs_of_pos ha,
        mul_div_mul_left _ _ hane]
    · rw [correlation, correlation, covariance_affine_right a b x y hyne,
        std_affine a b y hyne, abs_of_pos ha, mul_div_assoc a,
        mul_div_mul_left _ _ hane]
  · intro ha
    have hane : a ≠ 0 := ne_of_lt ha
    constructor
    · rw [correlation, correlation, covariance_affine_left a b x y hxne,
        std_affine a b x hxne, abs_of_neg ha, neg_mul, div_neg,
        mul_div_mul_left _ _ hane, neg_div]
    · rw [correlation, correlation, covariance_affine_right a b x y hyne,
        std_affine a b y hyne, abs_of_neg ha, mul_div_assoc a, neg_mul,
        div_neg, mul_div_mul_left _ _ hane]

/-- Witness for C9 at `x = [1, 2]`, `y = [3, 5]`, `a = 2`, `b = 3`. -/
theorem correlation_affine_witness :
    (0 < (2 : ℝ) →
      correlation ([(1 : ℝ), 2].map (fun t => 2 * t + 3)) [(3 : ℝ), 5] =
        correlation [(1 : ℝ), 2] [(3 : ℝ), 5] ∧
      correlation [(1 : ℝ), 2] ([(3 : ℝ), 5].map (fun t => 2 * t + 3)) =
        correlation [(1 : ℝ), 2] [(3 : ℝ), 5]) ∧
    ((2 : ℝ) < 0 →
      correlation ([(1 : ℝ), 2].map (fun t => 2 * t + 3)) [(3 : ℝ), 5] =
        - correlation [(1 : ℝ), 2] [(3 : ℝ), 5] ∧
      correlation [(1 : ℝ), 2] ([(3 : ℝ), 5].map (fun t => 2 * t + 3)) =
        - correlation [(1 : ℝ), 2] [(3 : ℝ), 5]) :=
  correlation_affine [(1 : ℝ), 2] [(3 : ℝ), 5] 2 3 (by simp) (by simp)
    ⟨1, by simp, 2, by simp, by norm_num⟩
    ⟨3, by simp, 5, by simp, by norm_num⟩

end CovCorr

namespace CondProb

theorem keys_incr (d : Dict) (k : ℕ) : keys (incr d k) = keys d := by
  induction d with
  | nil => rfl
  | cons p t ih =>
    simp only [incr, keys, List.map_cons] at ih ⊢
    by_cases h : p.1 = k <;> simp [h, ih]

theorem lookup_cons_self (a : ℕ) (v : ℕ) (t : List (ℕ × ℕ)) :
    List.lookup a ((a, v) :: t) = some v := by
  simp [List.lookup]

theorem lookup_cons_ne (a k : ℕ) (v : ℕ) (t : List (ℕ × ℕ)) (h : k ≠ a) :
    List.lookup k ((a, v) :: t) = List.lookup k t := by
  have hb : (k == a) = false := beq_eq_false_iff_ne.mpr h
  simp [List.lookup, hb]

theorem incr_cons (a v : ℕ) (t : List (ℕ × ℕ)) (k : ℕ) :
    incr ((a, v) :: t) k = (if a = k then (a, v + 1) else (a, v)) :: incr t k := by
  simp [incr]

theorem getVal_incr_self (d : Dict) (k : ℕ) (h : k ∈ keys d) :
    getVal (incr d k) k = getVal d k + 1 := by
  induction d with
  | nil => simp [keys] at h
  | cons p t ih =>
    obtain ⟨a, v⟩ := p
    rw [incr_cons]
    by_cases hp : a = k
    · subst hp
      rw [if_pos rfl]
      unfold getVal
      rw [lookup_cons_self, lookup_cons_self]
      rfl
    · rw [if_neg hp]
      have ht : k ∈ keys t := by
        rcases List.mem_cons.mp h with h1 | h1
        · exact absurd h1.symm hp
        · exact h1
      unfold getVal
      rw [lookup_cons_ne a k v _ (Ne.symm hp), lookup_cons_ne a k v t (Ne.symm hp)]
      exact ih ht

theorem getVal_incr_ne (d : Dict) (k k' : ℕ) (h : k' ≠ k) :
    getVal (incr d k) k' = getVal d k' := by
  induction d with
  | nil => rfl
  | cons p t ih =>
    obtain ⟨a, v⟩ := p
    rw [incr_cons]
    by_cases hk : k' = a
    · by_cases hp : a = k
      · exact absurd (hk.trans hp) h
      · rw [if_neg hp]
        unfold getVal
        rw [hk, lookup_cons_self, lookup_cons_self]
    · by_cases hp : a = k
      · rw [if_pos hp]
        unfold getVal
        rw [lookup_cons_ne a k' (v + 1) _ hk, lookup_cons_ne a k' v t hk]
        exact ih
      · rw [if_neg hp]
        unfold getVal
        rw [lookup_cons_ne a k' v _ hk, lookup_cons_ne a k' v t hk]
        exact ih

theorem incr_not_mem (d : Dict) (k : ℕ) (h : k ∉ keys d) : incr d k = d := by
  induction d with
  | nil => rfl
  | cons p t ih =>
    obtain ⟨a, v⟩ := p
    have ha : a ≠ k := by
      intro hak
      exact h (by simp [keys, hak])
    have ht : k ∉ keys t := fun hm => h (by simp [keys] at hm ⊢; right; exact hm)
    rw [incr_cons, if_neg ha, ih ht]

theorem valSum_incr_mem (d : Dict) (k : ℕ) (hnd : (keys d).Nodup)
    (h : k ∈ keys d) : valSum (incr d k) = valSum d + 1 := by
  induction d with
  | nil => simp [keys] at h
  | cons p t ih =>
    obtain ⟨a, v⟩ := p
    have hnd' : (keys t).Nodup := by
      simp only [keys, List.map_cons, List.nodup_cons] at hnd
      exact hnd.2
    rw [incr_cons]
    by_cases hp : a = k
    · subst hp
      rw [if_pos rfl]
      have hnotin : a ∉ keys t := by
        simp only [keys, List.map_cons, List.nodup_cons] at hnd
        exact hnd.1
      rw [incr_not_mem t a hnotin]
      simp [valSum]
      omega
    · rw [if_neg hp]
      have ht : k ∈ keys t := by
        rcases List.mem_cons.mp h with h1 | h1
        · exact absurd h1.symm hp
        · exact h1
      simp only [valSum, List.map_cons, List.sum_cons] at ih ⊢
      rw [ih hnd' ht]
      omega

theorem simInv_init : simInv initState 0 :=
  ⟨by decide, by decide, fun _ => le_refl _, by decide, by decide⟩

theorem simInv_step (st : SimState) (d : Draw) (n : ℕ)
    (hd : d.label ∈ ageLabels) (h : simInv st n) :
    simInv (stepSim st d) (n + 1) := by
  obtain ⟨hkt, hkp, hle, hst, hsp⟩ := h
  have hmemt : d.label ∈ keys st.totals := by rw [hkt]; exact hd
  have hmemp : d.label ∈ keys st.purchases := by rw [hkp]; exact hd
  have hndt : (keys st.totals).Nodup := by rw [hkt]; decide
  have hndp : (keys st.purchases).Nodup := by rw [hkp]; decide
  by_cases hr : d.r < (d.label : ℚ) / 100
  · simp only [stepSim, if_pos hr]
    refine ⟨?_, ?_, ?_, ?_, ?_⟩
    · rw [keys_incr]; exact hkt
    · rw [keys_incr]; exact hkp
    · intro L
      by_cases hL : L = d.label
      · rw [hL, getVal_incr_self st.purchases d.label hmemp,
          getVal_incr_self st.totals d.label hmemt]
        exact Nat.succ_le_succ (hle d.label)
      · rw [getVal_incr_ne st.purchases d.label L hL,
          getVal_incr_ne st.totals d.label L hL]
        exact hle L
    · rw [valSum_incr_mem st.totals d.label hndt hmemt, hst]
    · rw [valSum_incr_mem st.purchases d.label hndp hmemp, hsp]
  · simp only [stepSim, if_neg hr]
    refine ⟨?_, hkp, ?_, ?_, hsp⟩
    · rw [keys_incr]; exact hkt
    · intro L
      by_cases hL : L = d.label
      · rw [hL, getVal_incr_self st.totals d.label hmemt]
        exact Nat.le_succ_of_le (hle d.label)
      · rw [getVal_incr_ne st.totals d.label L hL]
        exact hle L
    · rw [valSum_incr_mem st.totals d.label hndt hmemt, hst]

theorem foldl_simInv (ds : List Draw) :
    ∀ st n, simInv st n → (∀ d ∈ ds, d.label ∈ ageLabels) →
      simInv (ds.foldl stepSim st) (n + ds.length) := by
  induction ds with
  | nil =>
    intro st n h _
    simpa using h
  | cons d t ih =>
    intro st n h hall
    simp only [List.foldl_cons, List.length_cons]
    have h1 := simInv_step st d n (hall d (by simp)) h
    have h2 := ih (stepSim st d) (n + 1) h1 (fun e he => hall e (by simp [he]))
    have heq : n + 1 + t.length = n + (t.length + 1) := by omega
    rwa [heq] at h2

/-- C5: after the generation loop (and after every prefix of it), both dicts
have the fixed key set `[20, 30, 40, 50, 60, 70]`, each per-label purchase
count is at most the per-label total, the totals sum to the number of
individuals processed, and the purchases sum to `totalPurchases`. -/
theorem generation_loop_invariant (ds : List Draw)
    (hd : ∀ d ∈ ds, d.label ∈ ageLabels) :
    simInv (runSim ds) ds.length ∧
    ∀ k, simInv (runSim (ds.take k)) (ds.take k).length := by
  constructor
  · have := foldl_simInv ds initState 0 simInv_init hd
    simpa [runSim] using this
  · intro k
    have hsub : ∀ d ∈ ds.take k, d.label ∈ ageLabels :=
      fun d hdk => hd d (List.take_subset k ds hdk)
    have := foldl_simInv (ds.take k) initState 0 simInv_init hsub
    simpa [runSim] using this

/-- Witness for C5 on the two-individual draw stream
`[(label 20, r = 1/10), (label 30, r = 9/10)]`. -/
theorem generation_loop_invariant_witness :
    simInv (runSim [⟨20, (1 : ℚ) / 10⟩, ⟨30, (9 : ℚ) / 10⟩]) 2 :=
  (generation_loop_invariant [⟨20, (1 : ℚ) / 10⟩, ⟨30, (9 : ℚ) / 10⟩]
    (by decide)).1

/-- C6: for every label with a non-zero tally and every non-zero population
size, the conditional probability `purchases[L] / totals[L]` equals the joint
probability divided by the marginal, `(purchases[L] / N) / (totals[L] / N)`,
exactly — and hence within the tolerance 1e-9. -/
theorem conditional_probability_identity (st : SimState) (L N : ℕ)
    (hL : getVal st.totals L ≠ 0) (hN : N ≠ 0) :
    condProb st L = jointProb st L N / margProb st L N ∧
    |condProb st L - jointProb st L N / margProb st L N| < 1 / 1000000000 := by
  have hLQ : (getVal st.totals L : ℚ) ≠ 0 := Nat.cast_ne_zero.mpr hL
  have hNQ : (N : ℚ) ≠ 0 := Nat.cast_ne_zero.mpr hN
  have h1 : condProb st L = jointProb st L N / margProb st L N := by
    unfold condProb jointProb margProb
    field_simp
  refine ⟨h1, ?_⟩
  rw [h1, sub_self, abs_zero]
  norm_num

/-- Witness for C6: the state after processing the single draw
`(label 30, r = 1/10)` (a purchase, since 1/10 < 30/100), with N = 1. -/
theorem conditional_probability_identity_witness :
    condProb (runSim [⟨30, (1 : ℚ) / 10⟩]) 30 =
      jointProb (runSim [⟨30, (1 : ℚ) / 10⟩]) 30 1 /
        margProb (runSim [⟨30, (1 : ℚ) / 10⟩]) 30 1 ∧
    |condProb (runSim [⟨30, (1 : ℚ) / 10⟩]) 30 -
        jointProb (runSim [⟨30, (1 : ℚ) / 10⟩]) 30 1 /
          margProb (runSim [⟨30, (1 : ℚ) / 10⟩]) 30 1| < 1 / 1000000000 :=
  conditional_probability_identity (runSim [⟨30, (1 : ℚ) / 10⟩]) 30 1
    (by
      norm_num [runSim, stepSim, initState, ageLabels, getVal, incr, List.lookup]
      decide)
    (by decide)

/-- C7: one iteration of the generation loop, on the individual draw
`(label, r)`, increments `totals[label]` by exactly 1 and leaves every other
total unchanged; the individual is purchased exactly when `r` is strictly
below `label / 100`, and in that case (and only then) `purchases[label]` and
`totalPurchases` are each incremented by 1, every other purchase count
unchanged. -/
theorem generation_step (st : SimState) (d : Draw)
    (ht : d.label ∈ keys st.totals) (hp : d.label ∈ keys st.purchases) :
    getVal (stepSim st d).totals d.label = getVal st.totals d.label + 1 ∧
    (∀ L, L ≠ d.label → getVal (stepSim st d).totals L = getVal st.totals L) ∧
    (d.r < (d.label : ℚ) / 100 →
      getVal (stepSim st d).purchases d.label = getVal st.purchases d.label + 1 ∧
      (∀ L, L ≠ d.label →
        getVal (stepSim st d).purchases L = getVal st.purchases L) ∧
      (stepSim st d).totalPurchases = st.totalPurchases + 1) ∧
    (¬ d.r < (d.label : ℚ) / 100 →
      (stepSim st d).purchases = st.purchases ∧
      (stepSim st d).totalPurchases = st.totalPurchases) := by
  by_cases hr : d.r < (d.label : ℚ) / 100
  · simp only [stepSim, if_pos hr]
    refine ⟨getVal_incr_self st.totals d.label ht, ?_, ?_, ?_⟩
    · intro L hL
      exact getVal_incr_ne st.totals d.label L hL
    · intro _
      refine ⟨getVal_incr_self st.purchases d.label hp, ?_, by trivial⟩
      intro L hL
      exact getVal_incr_ne st.purchases d.label L hL
    · intro hcon
      exact absurd hr hcon
  · simp only [stepSim, if_neg hr]
    refine ⟨getVal_incr_self st.totals d.label ht, ?_, ?_, ?_⟩
    · intro L hL
      exact getVal_incr_ne st.totals d.label L hL
    · intro hcon
      exact absurd hcon hr
    · intro _
      exact ⟨by trivial, by trivial⟩

/-- Witness for C7: the first individual, drawn with label 20 and uniform
value 1/10 (a purchase, since 1/10 < 20/100), starting from the initial
state. -/
theorem generation_step_witness :
    getVal (stepSim initState ⟨20, (1 : ℚ) / 10⟩).totals 20 =
      getVal initState.totals 20 + 1 ∧
    getVal (stepSim initState ⟨20, (1 : ℚ) / 10⟩).purchases 20 =
      getVal initState.purchases 20 + 1 ∧
    (stepSim initState ⟨20, (1 : ℚ) / 10⟩).totalPurchases =
      initState.totalPurchases + 1 := by
  have h := generation_step initState ⟨20, (1 : ℚ) / 10⟩ (by decide) (by decide)
  have hr : ((⟨20, (1 : ℚ) / 10⟩ : Draw).r : ℚ) <
      (((⟨20, (1 : ℚ) / 10⟩ : Draw).label : ℕ) : ℚ) / 100 := by norm_num
  exact ⟨h.1, (h.2.2.1 hr).1, (h.2.2.1 hr).2.2⟩

end CondProb
